import Mathlib

/-!
Verification of the directory utility script `templates/utils.py`.

The script takes one directory argument. It runs two independent loops:

* a listing pass: for every entry `f` of `os.listdir(mypath)` it forms
  `path = os.path.join(mypath, f)` and, when `os.path.isfile(path)` holds,
  prints `os.path.join(dir_path, path)`, where `dir_path` is the directory
  of the script itself;
* a rename pass: for every entry `f` of `os.listdir(mypath)` it computes
  `basename, ext = os.path.splitext(f)` and, when `ext == '.jpg'`, renames
  the entry to `basename.split('_')[0].lower() + ext`.

The script is Python 2, so names and paths are byte strings; we model them
as `List Nat` of byte values.  The directory is modelled as a list of
entries (name, kind, content id) in listing order; `os.listdir` returns the
names in that order, taken once before each loop, and `os.rename` follows
POSIX semantics: renaming a path to itself is a no-op, renaming a file over
an existing file silently replaces the target, and a source/target kind
clash is an error.  (POSIX also lets a directory replace an existing empty
directory; target emptiness is not modelled, so directory-over-directory is
modelled as the error case.  No claim depends on that corner.)
-/

/-- Byte string of an ASCII string literal, used to write concrete names. -/
def strBytes (s : String) : List Nat := s.data.map Char.toNat

/-- Filesystem names and paths are byte strings. -/
abbrev Name : Type := List Nat

/-- Split a byte string at its last dot (byte 46): returns the part before
the last dot and the part from the last dot on, or `none` when the string
has no dot. -/
def splitLastDot : Name → Option (Name × Name)
  | [] => none
  | c :: cs =>
    match splitLastDot cs with
    | some p => some (c :: p.1, p.2)
    | none => if c = 46 then some ([], 46 :: cs) else none

/-- `os.path.splitext` on a bare filename (no path separator): split off the
last-dot suffix, except that leading dots of the name never begin an
extension (so `.jpg` splits as `(.jpg, empty)`). -/
def splitext (p : Name) : Name × Name :=
  match splitLastDot (p.dropWhile (fun c => c = 46)) with
  | some q => (p.takeWhile (fun c => c = 46) ++ q.1, q.2)
  | none => (p, [])

/-- The extension of a name as defined by the glossary of the specification:
the substring after the last dot.  Kept separate from `splitext`, which is
the code's notion. -/
def glossaryExt (p : Name) : Option Name :=
  match splitLastDot p with
  | some q => some (q.2.drop 1)
  | none => none

/-- Python 2 `str.lower` on one byte: ASCII uppercase maps to lowercase. -/
def lowByte (c : Nat) : Nat := if 65 ≤ c ∧ c ≤ 90 then c + 32 else c

/-- Python 2 `str.lower` on a byte string. -/
def lower (s : Name) : Name := s.map lowByte

/-- `s.split('_')[0]`: the part of the string before its first underscore
(byte 95); the whole string when it has none. -/
def beforeUnderscore (b : Name) : Name := b.takeWhile (fun c => ¬ c = 95)

/-- `basename.split('_')[0].lower() + ext`, the new name computed by the
rename pass. -/
def new_name (b e : Name) : Name := lower (beforeUnderscore b) ++ e

/-- The literal extension `'.jpg'` the rename pass compares against. -/
def jpgExt : Name := strBytes (r".jpg")

/-- The rename target the pass computes for a listing entry `f`: `none` when
the `splitext` extension of `f` is not `'.jpg'` (the entry is skipped),
otherwise the new name. -/
def targetOf (f : Name) : Option Name :=
  if (splitext f).2 = jpgExt then some (new_name (splitext f).1 (splitext f).2) else none

/-- A POSIX path is absolute when it starts with a slash (byte 47). -/
def isAbs (p : Name) : Bool := p.head? = some 47

/-- `os.path.join(a, b)` for two components, POSIX rules: an absolute second
component discards the first; otherwise a slash separates them unless the
first is empty or already ends in a slash. -/
def pjoin (a b : Name) : Name :=
  if isAbs b then b
  else if a = [] ∨ a.getLast? = some 47 then a ++ b
  else a ++ 47 :: b

/-- The path the listing pass prints for a listing entry `f`:
`os.path.join(dir_path, os.path.join(mypath, f))`. -/
def printedPath (dp mp f : Name) : Name := pjoin dp (pjoin mp f)

/-- Kind of a directory entry. -/
inductive EntryKind : Type
  | file : EntryKind
  | dir : EntryKind
  deriving DecidableEq

/-- A directory entry: its name, kind and an abstract content identifier
(which stands for the file data). -/
structure Entry : Type where
  name : Name
  kind : EntryKind
  content : Nat
  deriving DecidableEq

/-- The listing pass: it prints, in listing order, the joined path of every
entry of the directory that is a regular file. -/
def listingOutput (dp mp : Name) (d : List Entry) : List Name :=
  (d.filter (fun e => decide (e.kind = EntryKind.file))).map (fun e => printedPath dp mp e.name)

/-- Modelled from the spec: the true absolute directory named by the
argument `mp`, resolving a relative argument against the working
directory `cwd`. -/
def realDir (cwd mp : Name) : Name := if isAbs mp then mp else pjoin cwd mp

/-- Modelled from the spec: the absolute paths of the regular files directly
contained in the target directory, in listing order — the output the
specification says the listing pass produces. -/
def trueAbsListing (cwd mp : Name) (d : List Entry) : List Name :=
  (d.filter (fun e => decide (e.kind = EntryKind.file))).map (fun e => pjoin (realDir cwd mp) e.name)

/-- Kind of the entry with a given name, `none` when no entry has it. -/
def kindOf (s : List Entry) (n : Name) : Option EntryKind :=
  (s.find? (fun g => decide (g.name = n))).map Entry.kind

/-- The state change of a successful `os.rename(old, new)` with `old ≠ new`:
the entry previously at `new` (if any) disappears and the entry at `old`
now carries the name `new`, kind and content unchanged. -/
def applyRename (s : List Entry) (old new : Name) : List Entry :=
  (s.filter (fun g => decide (¬ g.name = new))).map
    (fun g => if g.name = old then ⟨new, g.kind, g.content⟩ else g)

/-- Errors a filesystem operation can raise; they are never caught. -/
inductive Err : Type
  | srcMissing : Err
  | clash : Err
  deriving DecidableEq

/-- `os.rename(old, new)`, POSIX: error when the source is missing; no-op
when `old = new`; silent replacement when the target exists and both are
regular files; kind clash (including directory over directory, whose
success would need target emptiness, which is not modelled) is an error. -/
def renameOp (s : List Entry) (old new : Name) : Except Err (List Entry) :=
  match kindOf s old with
  | none => Except.error Err.srcMissing
  | some ko =>
    if old = new then Except.ok s
    else
      match kindOf s new with
      | none => Except.ok (applyRename s old new)
      | some kn =>
        if ko = EntryKind.file ∧ kn = EntryKind.file then Except.ok (applyRename s old new)
        else Except.error Err.clash

/-- One iteration of the rename loop on listing entry `f`: skip unless the
`splitext` extension is `'.jpg'`, otherwise rename to the computed name. -/
def renameStep (s : List Entry) (f : Name) : Except Err (List Entry) :=
  match targetOf f with
  | none => Except.ok s
  | some t => renameOp s f t

/-- Run the rename loop over the (already taken) listing: iterations run in
order, and the first error stops the loop, returning the state reached so
far together with the error. -/
def runRename : List Name → List Entry → List Entry × Option Err
  | [], s => (s, none)
  | f :: fs, s =>
    match renameStep s f with
    | Except.ok s2 => runRename fs s2
    | Except.error e => (s, some e)

/-- The whole rename pass: take the listing once, then run the loop. -/
def renamePass (s : List Entry) : List Entry × Option Err :=
  runRename (s.map Entry.name) s

/-! ### String-level lemmas -/

theorem splitLastDot_append : ∀ (r : Name) (q : Name × Name),
    splitLastDot r = some q → q.1 ++ q.2 = r
  | [], q => by intro h; simp [splitLastDot] at h
  | c :: cs, q => by
    intro h
    cases h2 : splitLastDot cs with
    | some p =>
      have := splitLastDot_append cs p h2
      simp only [splitLastDot, h2] at h
      cases h
      simp [this]
    | none =>
      simp only [splitLastDot, h2] at h
      by_cases hc : c = 46
      · rw [if_pos hc] at h
        cases h
        simp [hc]
      · rw [if_neg hc] at h
        cases h

theorem splitext_append (p : Name) : (splitext p).1 ++ (splitext p).2 = p := by
  cases h : splitLastDot (p.dropWhile (fun c => c = 46)) with
  | none => simp [splitext, h]
  | some q =>
    have h1 := splitLastDot_append _ q h
    simp only [splitext, h, List.append_assoc, h1]
    exact List.takeWhile_append_dropWhile (fun c => decide (c = 46)) p

theorem lowByte_not_upper (c : Nat) : ¬ (65 ≤ lowByte c ∧ lowByte c ≤ 90) := by
  unfold lowByte; split <;> omega

theorem lowByte_ne95 (c : Nat) (h : ¬ c = 95) : ¬ lowByte c = 95 := by
  unfold lowByte; split <;> omega

theorem lowByte_fix (c : Nat) (h : ¬ (65 ≤ c ∧ c ≤ 90)) : lowByte c = c := by
  unfold lowByte; split <;> omega

theorem lowByte_idem (c : Nat) : lowByte (lowByte c) = lowByte c :=
  lowByte_fix _ (lowByte_not_upper c)

theorem lower_not_upper (s : Name) : ∀ c ∈ lower s, ¬ (65 ≤ c ∧ c ≤ 90) := by
  intro c hc
  rw [lower, List.mem_map] at hc
  obtain ⟨a, _, rfl⟩ := hc
  exact lowByte_not_upper a

theorem lower_ne95 (s : Name) (h : ∀ c ∈ s, ¬ c = 95) : ∀ c ∈ lower s, ¬ c = 95 := by
  intro c hc
  rw [lower, List.mem_map] at hc
  obtain ⟨a, ha, rfl⟩ := hc
  exact lowByte_ne95 a (h a ha)

theorem lower_eq_self : ∀ (s : Name), (∀ c ∈ s, ¬ (65 ≤ c ∧ c ≤ 90)) → lower s = s
  | [], _ => rfl
  | a :: l, h => by
    have ha := lowByte_fix a (h a (List.mem_cons_self a l))
    have hl := lower_eq_self l (fun c hc => h c (List.mem_cons_of_mem a hc))
    simp only [lower, List.map_cons] at hl ⊢
    rw [ha, hl]

theorem lower_idem (s : Name) : lower (lower s) = lower s :=
  lower_eq_self _ (lower_not_upper s)

theorem takeWhile_all {p : Nat → Bool} : ∀ (l : Name), (∀ c ∈ l, p c = true) → l.takeWhile p = l
  | [], _ => rfl
  | a :: l, h => by
    have ha := h a (List.mem_cons_self a l)
    have hl := takeWhile_all l (fun c hc => h c (List.mem_cons_of_mem a hc))
    simp [List.takeWhile_cons, ha, hl]

theorem mem_takeWhile {p : Nat → Bool} : ∀ (l : Name), ∀ c ∈ l.takeWhile p, p c = true
  | a :: l, c, hc => by
    cases hpa : p a with
    | true =>
      rw [List.takeWhile_cons, if_pos hpa] at hc
      cases hc with
      | head => exact hpa
      | tail _ h2 => exact mem_takeWhile l c h2
    | false =>
      rw [List.takeWhile_cons, if_neg (by simp [hpa])] at hc
      cases hc

theorem beforeUnderscore_ne95 (b : Name) : ∀ c ∈ beforeUnderscore b, ¬ c = 95 := by
  intro c hc
  have := mem_takeWhile b c hc
  exact of_decide_eq_true this

theorem beforeUnderscore_eq_self (b : Name) (h : ∀ c ∈ b, ¬ c = 95) :
    beforeUnderscore b = b :=
  takeWhile_all b (fun c hc => decide_eq_true (h c hc))

theorem splitLastDot_none : ∀ (r : Name), (∀ c ∈ r, ¬ c = 46) → splitLastDot r = none
  | [], _ => rfl
  | a :: l, h => by
    have ha := h a (List.mem_cons_self a l)
    have hl := splitLastDot_none l (fun c hc => h c (List.mem_cons_of_mem a hc))
    simp [splitLastDot, hl, ha]

theorem splitLastDot_last : ∀ (x y : Name), (∀ c ∈ y, ¬ c = 46) →
    splitLastDot (x ++ 46 :: y) = some (x, 46 :: y)
  | [], y, h => by
    simp [splitLastDot, splitLastDot_none y h]
  | a :: x, y, h => by
    have hx := splitLastDot_last x y h
    simp [splitLastDot, hx]

theorem dropWhile_all {p : Nat → Bool} : ∀ (a b : Name), (∀ c ∈ a, p c = true) →
    (a ++ b).dropWhile p = b.dropWhile p
  | [], b, _ => rfl
  | x :: a, b, h => by
    have hx := h x (List.mem_cons_self x a)
    have ha := dropWhile_all a b (fun c hc => h c (List.mem_cons_of_mem x hc))
    simp [List.dropWhile_cons, hx, ha]

theorem dropWhile_append_pos {p : Nat → Bool} : ∀ (a b : Name), ¬ a.dropWhile p = [] →
    (a ++ b).dropWhile p = a.dropWhile p ++ b
  | [], _, h => absurd rfl h
  | x :: a, b, h => by
    cases hx : p x with
    | true =>
      rw [List.dropWhile_cons, if_pos hx] at h ⊢
      rw [List.cons_append, List.dropWhile_cons, if_pos hx]
      exact dropWhile_append_pos a b h
    | false =>
      rw [List.cons_append, List.dropWhile_cons, if_neg (by simp [hx]),
        List.dropWhile_cons, if_neg (by simp [hx])]
      rfl

theorem takeWhile_append_pos {p : Nat → Bool} : ∀ (a b : Name), ¬ a.dropWhile p = [] →
    (a ++ b).takeWhile p = a.takeWhile p
  | [], _, h => absurd rfl h
  | x :: a, b, h => by
    cases hx : p x with
    | true =>
      rw [List.dropWhile_cons, if_pos hx] at h
      rw [List.cons_append, List.takeWhile_cons, if_pos hx, List.takeWhile_cons, if_pos hx,
        takeWhile_append_pos a b h]
    | false =>
      rw [List.cons_append, List.takeWhile_cons, if_neg (by simp [hx]),
        List.takeWhile_cons, if_neg (by simp [hx])]

theorem jpgExt_eq : jpgExt = 46 :: [106, 112, 103] := by decide

/-- When the part before the appended `'.jpg'` is made of dots only, the
leading-dot rule of `splitext` swallows everything: the extension is empty. -/
theorem splitext_concat_jpg_dots (L : Name) (hL : ∀ c ∈ L, c = 46) :
    splitext (L ++ jpgExt) = (L ++ jpgExt, []) := by
  have hall : ∀ c ∈ L, (fun c => decide (c = 46)) c = true := by
    intro c hc; exact decide_eq_true (hL c hc)
  have h1 : (L ++ jpgExt).dropWhile (fun c => decide (c = 46)) = [106, 112, 103] := by
    rw [dropWhile_all L jpgExt hall, jpgExt_eq]
    decide
  have h2 : splitLastDot ([106, 112, 103] : Name) = none := by decide
  simp [splitext, h1, h2]

/-- When the part before the appended `'.jpg'` has a non-dot byte, `splitext`
splits exactly at the appended dot. -/
theorem splitext_concat_jpg (L : Name) (hL : ¬ L.dropWhile (fun c => decide (c = 46)) = []) :
    splitext (L ++ jpgExt) = (L, jpgExt) := by
  have hy : ∀ c ∈ ([106, 112, 103] : Name), ¬ c = 46 := by decide
  have h1 : (L ++ jpgExt).dropWhile (fun c => decide (c = 46)) =
      L.dropWhile (fun c => decide (c = 46)) ++ jpgExt :=
    dropWhile_append_pos L jpgExt hL
  have h2 : splitLastDot (L.dropWhile (fun c => decide (c = 46)) ++ jpgExt) =
      some (L.dropWhile (fun c => decide (c = 46)), jpgExt) := by
    rw [jpgExt_eq]
    exact splitLastDot_last _ _ hy
  have h3 : (L ++ jpgExt).takeWhile (fun c => decide (c = 46)) =
      L.takeWhile (fun c => decide (c = 46)) :=
    takeWhile_append_pos L jpgExt hL
  simp only [splitext, h1, h2, h3]
  rw [List.takeWhile_append_dropWhile]

/-! ### Lemmas about the rename target -/

theorem targetOf_jpg (f b : Name) (h : splitext f = (b, jpgExt)) :
    targetOf f = some (new_name b jpgExt) := by
  simp [targetOf, h]

theorem targetOf_not_jpg (f : Name) (h : ¬ (splitext f).2 = jpgExt) :
    targetOf f = none := by
  simp [targetOf, h]

theorem new_name_self (b : Name) :
    new_name (lower (beforeUnderscore b)) jpgExt = lower (beforeUnderscore b) ++ jpgExt := by
  have h95 := lower_ne95 (beforeUnderscore b) (beforeUnderscore_ne95 b)
  rw [new_name, beforeUnderscore_eq_self _ h95, lower_idem]

/-- The name the rename pass produces maps to itself (or, when the leading
dots swallow the extension, to nothing) on a further run. -/
theorem targetOf_new_name (b : Name) :
    targetOf (new_name b jpgExt) = none ∨
      targetOf (new_name b jpgExt) = some (new_name b jpgExt) := by
  have hnn : new_name b jpgExt = lower (beforeUnderscore b) ++ jpgExt := rfl
  by_cases hL : (lower (beforeUnderscore b)).dropWhile (fun c => decide (c = 46)) = []
  · left
    have hall : ∀ c ∈ lower (beforeUnderscore b), c = 46 := by
      intro c hc
      exact of_decide_eq_true (List.dropWhile_eq_nil_iff.mp hL c hc)
    have hsp := splitext_concat_jpg_dots (lower (beforeUnderscore b)) hall
    apply targetOf_not_jpg
    rw [hnn, hsp]
    simp [jpgExt_eq]
  · right
    have hsp := splitext_concat_jpg (lower (beforeUnderscore b)) hL
    rw [hnn, targetOf, hsp]
    simp [new_name_self b]

/-! ### Lemmas about the directory state operations -/

theorem applyRename_mem (s : List Entry) (old nw : Name) (e : Entry)
    (he : e ∈ s) (h1 : ¬ e.name = old) (h2 : ¬ e.name = nw) :
    e ∈ applyRename s old nw := by
  rw [applyRename, List.mem_map]
  exact ⟨e, List.mem_filter.mpr ⟨he, by simp [h2]⟩, by rw [if_neg h1]⟩

theorem applyRename_mem_new (s : List Entry) (old nw : Name) (e : Entry)
    (he : e ∈ s) (hname : e.name = old) (hne : ¬ old = nw) :
    (⟨nw, e.kind, e.content⟩ : Entry) ∈ applyRename s old nw := by
  rw [applyRename, List.mem_map]
  refine ⟨e, List.mem_filter.mpr ⟨he, ?_⟩, ?_⟩
  · simp [hname, hne]
  · rw [if_pos hname]

theorem applyRename_names (s : List Entry) (old nw : Name) :
    ∀ g ∈ applyRename s old nw, g.name = nw ∨ ∃ e ∈ s, e.name = g.name := by
  intro g hg
  rw [applyRename, List.mem_map] at hg
  obtain ⟨a, haf, rfl⟩ := hg
  have ha : a ∈ s := (List.mem_filter.mp haf).1
  by_cases h : a.name = old
  · left; rw [if_pos h]
  · right; rw [if_neg h]; exact ⟨a, ha, rfl⟩

theorem kindOf_ne_none (s : List Entry) (e : Entry) (he : e ∈ s) :
    ¬ kindOf s e.name = none := by
  intro h
  rw [kindOf, Option.map_eq_none'] at h
  have h2 := List.find?_eq_none.mp h e he
  simp at h2

theorem kindOf_none (s : List Entry) (n : Name) (h : ∀ g ∈ s, ¬ g.name = n) :
    kindOf s n = none := by
  rw [kindOf, List.find?_eq_none.mpr (fun a ha => by simpa using h a ha)]
  rfl

theorem find?_name_nodup : ∀ (s : List Entry) (e : Entry),
    ((s.map Entry.name).Nodup) → e ∈ s →
    s.find? (fun g => decide (g.name = e.name)) = some e
  | a :: l, e, hnd, he => by
    rw [List.map_cons, List.nodup_cons] at hnd
    cases he with
    | head => exact List.find?_cons_of_pos _ (by simp)
    | tail _ htl =>
      have hne : ¬ a.name = e.name := by
        intro hcontra
        exact hnd.1 (hcontra ▸ List.mem_map_of_mem Entry.name htl)
      rw [List.find?_cons_of_neg _ (by simp [hne])]
      exact find?_name_nodup l e hnd.2 htl

theorem kindOf_of_mem_nodup (s : List Entry) (e : Entry)
    (hnd : (s.map Entry.name).Nodup) (he : e ∈ s) :
    kindOf s e.name = some e.kind := by
  rw [kindOf, find?_name_nodup s e hnd he]
  rfl

theorem renameOp_ok_cases (s : List Entry) (old nw : Name) (s2 : List Entry)
    (h : renameOp s old nw = Except.ok s2) :
    (old = nw ∧ s2 = s) ∨ (¬ old = nw ∧ s2 = applyRename s old nw) := by
  cases hk : kindOf s old with
  | none => rw [renameOp, hk] at h; exact Except.noConfusion h
  | some ko =>
    simp only [renameOp, hk] at h
    by_cases he : old = nw
    · rw [if_pos he] at h
      injection h with h2
      exact Or.inl ⟨he, h2.symm⟩
    · rw [if_neg he] at h
      refine Or.inr ⟨he, ?_⟩
      cases hk2 : kindOf s nw with
      | none => simp only [hk2] at h; injection h with h2; exact h2.symm
      | some kn =>
        simp only [hk2] at h
        by_cases hff : ko = EntryKind.file ∧ kn = EntryKind.file
        · rw [if_pos hff] at h; injection h with h2; exact h2.symm
        · rw [if_neg hff] at h; exact Except.noConfusion h

theorem renameOp_self (s : List Entry) (old : Name) (h : ¬ kindOf s old = none) :
    renameOp s old old = Except.ok s := by
  cases hk : kindOf s old with
  | none => exact absurd hk h
  | some ko => simp [renameOp, hk]

theorem renameOp_fresh (s : List Entry) (old nw : Name)
    (h1 : ¬ kindOf s old = none) (h2 : ¬ old = nw) (h3 : kindOf s nw = none) :
    renameOp s old nw = Except.ok (applyRename s old nw) := by
  cases hk : kindOf s old with
  | none => exact absurd hk h1
  | some ko => simp [renameOp, hk, h2, h3]

/-! ### Lemmas about the rename loop -/

theorem runRename_append_ok : ∀ (l1 l2 : List Name) (s s1 : List Entry),
    runRename l1 s = (s1, none) → runRename (l1 ++ l2) s = runRename l2 s1
  | [], l2, s, s1, h => by
    rw [runRename] at h
    injection h with h1 h2
    rw [List.nil_append, h1]
  | f :: fs, l2, s, s1, h => by
    cases hst : renameStep s f with
    | ok s2 =>
      simp only [runRename, hst] at h
      rw [List.cons_append]
      simp only [runRename, hst]
      exact runRename_append_ok fs l2 s2 s1 h
    | error er =>
      simp only [runRename, hst] at h
      injection h with h1 h2
      exact Option.noConfusion h2

theorem runRename_append_err : ∀ (l1 l2 : List Name) (s s1 : List Entry) (er : Err),
    runRename l1 s = (s1, some er) → runRename (l1 ++ l2) s = (s1, some er)
  | [], l2, s, s1, er, h => by
    rw [runRename] at h
    injection h with h1 h2
    exact Option.noConfusion h2
  | f :: fs, l2, s, s1, er, h => by
    cases hst : renameStep s f with
    | ok s2 =>
      simp only [runRename, hst] at h
      rw [List.cons_append]
      simp only [runRename, hst]
      exact runRename_append_err fs l2 s2 s1 er h
    | error e2 =>
      simp only [runRename, hst] at h
      rw [List.cons_append]
      simp only [runRename, hst]
      exact h

theorem renameStep_skip (s : List Entry) (f : Name) (h : targetOf f = none) :
    renameStep s f = Except.ok s := by
  rw [renameStep, h]

theorem renameStep_go (s : List Entry) (f t : Name) (h : targetOf f = some t) :
    renameStep s f = renameOp s f t := by
  rw [renameStep, h]

/-- An entry survives the loop untouched when no iteration renames it away
and no iteration renames another entry onto its name. -/
theorem runRename_preserve : ∀ (l : List Name) (s : List Entry) (e : Entry),
    (∀ f ∈ l, targetOf f = none ∨ (¬ f = e.name ∧ ¬ targetOf f = some e.name)) →
    e ∈ s → e ∈ (runRename l s).1
  | [], _, e, _, he => he
  | f :: fs, s, e, hc, he => by
    have hf := hc f (List.mem_cons_self f fs)
    cases hst : renameStep s f with
    | error er => simp only [runRename, hst]; exact he
    | ok s2 =>
      simp only [runRename, hst]
      apply runRename_preserve fs s2 e (fun g hg => hc g (List.mem_cons_of_mem f hg))
      cases htf : targetOf f with
      | none =>
        rw [renameStep_skip s f htf] at hst
        injection hst with h2
        exact h2 ▸ he
      | some t =>
        rw [renameStep_go s f t htf] at hst
        rcases hf with hnone | ⟨hne, hnt⟩
        · rw [htf] at hnone; exact Option.noConfusion hnone
        · have ht : ¬ e.name = t := by
            intro hh
            rw [htf, hh] at hnt
            exact hnt rfl
          rcases renameOp_ok_cases s f t s2 hst with ⟨_, hs2⟩ | ⟨_, hs2⟩
          · exact hs2 ▸ he
          · rw [hs2]
            exact applyRename_mem s f t e he (fun hh => hne (hh.symm)) ht

/-- Any name present after the loop was present before it or is the target
of one of the iterations. -/
theorem runRename_names : ∀ (l : List Name) (s : List Entry) (g : Entry),
    g ∈ (runRename l s).1 →
    (∃ e ∈ s, e.name = g.name) ∨ ∃ f ∈ l, targetOf f = some g.name
  | [], s, g, hg => Or.inl ⟨g, hg, rfl⟩
  | f :: fs, s, g, hg => by
    cases hst : renameStep s f with
    | error er =>
      simp only [runRename, hst] at hg
      exact Or.inl ⟨g, hg, rfl⟩
    | ok s2 =>
      simp only [runRename, hst] at hg
      rcases runRename_names fs s2 g hg with ⟨e2, he2, hname⟩ | ⟨f2, hf2, ht2⟩
      · cases htf : targetOf f with
        | none =>
          rw [renameStep_skip s f htf] at hst
          injection hst with h2
          exact Or.inl ⟨e2, h2 ▸ he2, hname⟩
        | some t =>
          rw [renameStep_go s f t htf] at hst
          rcases renameOp_ok_cases s f t s2 hst with ⟨_, hs2⟩ | ⟨_, hs2⟩
          · exact Or.inl ⟨e2, hs2 ▸ he2, hname⟩
          · rcases applyRename_names s f t e2 (hs2 ▸ he2) with hnew | ⟨e3, he3, hname3⟩
            · exact Or.inr ⟨f, List.mem_cons_self f fs, by rw [htf, ← hname, hnew]⟩
            · exact Or.inl ⟨e3, he3, hname3.trans hname⟩
      · exact Or.inr ⟨f2, List.mem_cons_of_mem f hf2, ht2⟩

/-- When every iteration leaves the state untouched, the loop does too. -/
theorem runRename_id : ∀ (l : List Name) (s : List Entry),
    (∀ f ∈ l, renameStep s f = Except.ok s) → runRename l s = (s, none)
  | [], _, _ => rfl
  | f :: fs, s, h => by
    have hf := h f (List.mem_cons_self f fs)
    simp only [runRename, hf]
    exact runRename_id fs s (fun g hg => h g (List.mem_cons_of_mem f hg))

theorem applyRename_names_list : ∀ (s : List Entry) (old nw : Name),
    (applyRename s old nw).map Entry.name =
      ((s.map Entry.name).filter (fun m => decide (¬ m = nw))).map
        (fun m => if m = old then nw else m)
  | [], _, _ => rfl
  | a :: l, old, nw => by
    have ih := applyRename_names_list l old nw
    by_cases hn : a.name = nw
    · have hd : decide (¬ a.name = nw) = false := by simp [hn]
      simp only [applyRename, List.map_cons, List.filter_cons, hd] at ih ⊢
      exact ih
    · have hd : decide (¬ a.name = nw) = true := by simp [hn]
      by_cases ho : a.name = old
      · simp only [applyRename, List.map_cons, List.filter_cons, hd, if_true, if_pos ho,
          List.map_cons] at ih ⊢
        rw [ih]
      · simp only [applyRename, List.map_cons, List.filter_cons, hd, if_true, if_neg ho,
          List.map_cons] at ih ⊢
        rw [ih]

theorem applyRename_nodup (s : List Entry) (old nw : Name)
    (hnd : (s.map Entry.name).Nodup) :
    ((applyRename s old nw).map Entry.name).Nodup := by
  rw [applyRename_names_list]
  apply List.Nodup.map_on
  · intro x hx y hy hxy
    have hx2 : ¬ x = nw := of_decide_eq_true (List.mem_filter.mp hx).2
    have hy2 : ¬ y = nw := of_decide_eq_true (List.mem_filter.mp hy).2
    by_cases hxo : x = old
    · by_cases hyo : y = old
      · rw [hxo, hyo]
      · rw [if_pos hxo, if_neg hyo] at hxy
        exact absurd hxy.symm hy2
    · by_cases hyo : y = old
      · rw [if_neg hxo, if_pos hyo] at hxy
        exact absurd hxy hx2
      · rw [if_neg hxo, if_neg hyo] at hxy
        exact hxy
  · exact hnd.filter _

theorem renameStep_nodup (s s2 : List Entry) (f : Name)
    (hnd : (s.map Entry.name).Nodup) (h : renameStep s f = Except.ok s2) :
    (s2.map Entry.name).Nodup := by
  cases htf : targetOf f with
  | none =>
    rw [renameStep_skip s f htf] at h
    injection h with h2
    exact h2 ▸ hnd
  | some t =>
    rw [renameStep_go s f t htf] at h
    rcases renameOp_ok_cases s f t s2 h with ⟨_, hs2⟩ | ⟨_, hs2⟩
    · exact hs2 ▸ hnd
    · exact hs2 ▸ applyRename_nodup s f t hnd

theorem runRename_nodup : ∀ (l : List Name) (s : List Entry),
    (s.map Entry.name).Nodup → (((runRename l s).1).map Entry.name).Nodup
  | [], _, hnd => hnd
  | f :: fs, s, hnd => by
    cases hst : renameStep s f with
    | error er => simp only [runRename, hst]; exact hnd
    | ok s2 =>
      simp only [runRename, hst]
      exact runRename_nodup fs s2 (renameStep_nodup s s2 f hnd hst)

/-! ### Path lemmas and the listing claims -/

theorem head?_append_ne (a b : Name) (h : ¬ a = []) : (a ++ b).head? = a.head? := by
  cases a with
  | nil => exact absurd rfl h
  | cons x xs => rfl

theorem pjoin_absolute (a b : Name) (h : isAbs b = true) : pjoin a b = b := by
  rw [pjoin, if_pos h]

theorem isAbs_pjoin (a b : Name) (h : isAbs a = true) : isAbs (pjoin a b) = true := by
  have ha : ¬ a = [] := by
    intro hh
    rw [hh] at h
    exact absurd h (by decide)
  rw [pjoin]
  by_cases hb : isAbs b = true
  · rw [if_pos hb]; exact hb
  · rw [if_neg hb]
    by_cases hc : a = [] ∨ a.getLast? = some 47
    · rw [if_pos hc, isAbs, head?_append_ne a b ha]; exact h
    · rw [if_neg hc, isAbs, head?_append_ne a (47 :: b) ha]; exact h

theorem printedPath_absolute (dp mp f : Name) (h : isAbs mp = true) :
    printedPath dp mp f = pjoin mp f := by
  rw [printedPath]
  exact pjoin_absolute dp (pjoin mp f) (isAbs_pjoin mp f h)

/-- Claim C8: when the directory argument is an absolute path, joining with
the script's own directory is harmless — `os.path.join` returns an already
absolute second component unchanged — so the listing pass prints the true
absolute path of each file; the erroneous `dir_path` only matters for
relative arguments. -/
theorem absolute_arg_prints_true_path (mp : Name) (h : isAbs mp = true) :
    (∀ a b : Name, isAbs b = true → pjoin a b = b) ∧
    (∀ cwd dp f : Name, printedPath dp mp f = pjoin (realDir cwd mp) f) := by
  constructor
  · exact pjoin_absolute
  · intro cwd dp f
    rw [printedPath_absolute dp mp f h, realDir, if_pos h]

/-- Closed instance of the absolute-argument claim. -/
theorem absolute_arg_prints_true_path_witness :
    isAbs (strBytes (r"/data")) = true ∧
      printedPath (strBytes (r"/s")) (strBytes (r"/data")) (strBytes (r"a.txt")) =
        pjoin (realDir (strBytes (r"/c")) (strBytes (r"/data"))) (strBytes (r"a.txt")) :=
  ⟨by decide, (absolute_arg_prints_true_path (strBytes (r"/data")) (by decide)).2
    (strBytes (r"/c")) (strBytes (r"/s")) (strBytes (r"a.txt"))⟩

/-- Claim C1, counterexample: with the script installed in `/s`, the process
working directory `/c` and the relative argument `d`, a regular file `a` in
the directory is printed as `/s/d/a`, but its absolute path is `/c/d/a`, so
the printed set differs from the set the claim promises. -/
theorem listing_relative_arg_wrong :
    listingOutput (strBytes (r"/s")) (strBytes (r"d"))
        [⟨strBytes (r"a"), EntryKind.file, 0⟩] ≠
      trueAbsListing (strBytes (r"/c")) (strBytes (r"d"))
        [⟨strBytes (r"a"), EntryKind.file, 0⟩] := by
  decide

/-- Claim C1, amended: for an absolute directory argument the listing pass
prints, one per line and in listing order, exactly the absolute paths of the
regular files directly in the directory; for a relative argument the printed
paths are the script directory joined with the relative path instead. -/
theorem listing_correct_for_absolute_arg (dp cwd mp : Name) (d : List Entry)
    (h : isAbs mp = true) :
    listingOutput dp mp d = trueAbsListing cwd mp d := by
  rw [listingOutput, trueAbsListing]
  apply List.map_congr_left
  intro e _
  rw [printedPath_absolute dp mp e.name h, realDir, if_pos h]

/-- Closed instance of the amended listing claim. -/
theorem listing_correct_for_absolute_arg_witness :
    isAbs (strBytes (r"/data")) = true ∧
      listingOutput (strBytes (r"/s")) (strBytes (r"/data"))
          [⟨strBytes (r"a"), EntryKind.file, 0⟩, ⟨strBytes (r"sub"), EntryKind.dir, 1⟩] =
        trueAbsListing (strBytes (r"/c")) (strBytes (r"/data"))
          [⟨strBytes (r"a"), EntryKind.file, 0⟩, ⟨strBytes (r"sub"), EntryKind.dir, 1⟩] :=
  ⟨by decide, listing_correct_for_absolute_arg (strBytes (r"/s")) (strBytes (r"/c"))
    (strBytes (r"/data")) _ (by decide)⟩

/-- Claim C2, counterexample: a subdirectory named `Sub_dir.jpg` IS renamed
by the rename pass (there is no file check in the rename loop), contradicting
the claim that a subdirectory is never renamed. -/
theorem jpg_dir_renamed_cex :
    renamePass [⟨strBytes (r"Sub_dir.jpg"), EntryKind.dir, 0⟩] =
        ([⟨strBytes (r"sub.jpg"), EntryKind.dir, 0⟩], none) ∧
      ¬ strBytes (r"sub.jpg") = strBytes (r"Sub_dir.jpg") := by
  constructor
  · decide
  · decide

/-- The rename pass on a directory holding a single entry of arbitrary kind
whose `splitext` extension is `'.jpg'`: the entry is renamed to the computed
name regardless of its kind. -/
theorem renamePass_singleton (nm b : Name) (k : EntryKind) (c : Nat)
    (hsp : splitext nm = (b, jpgExt)) :
    renamePass [⟨nm, k, c⟩] = ([⟨new_name b jpgExt, k, c⟩], none) := by
  have htf := targetOf_jpg nm b hsp
  have hko : kindOf [(⟨nm, k, c⟩ : Entry)] nm = some k := by
    rw [kindOf, List.find?_cons_of_pos _ (by simp)]
    rfl
  have hstep : renameStep [(⟨nm, k, c⟩ : Entry)] nm =
      renameOp [⟨nm, k, c⟩] nm (new_name b jpgExt) := renameStep_go _ _ _ htf
  by_cases heq : nm = new_name b jpgExt
  · have hop := renameOp_self [(⟨nm, k, c⟩ : Entry)] nm
      (by rw [hko]; intro hh; exact Option.noConfusion hh)
    have hstep2 : renameStep [(⟨nm, k, c⟩ : Entry)] nm = Except.ok [⟨nm, k, c⟩] := by
      rw [hstep, ← heq]
      exact hop
    rw [renamePass]
    show runRename [nm] [⟨nm, k, c⟩] = _
    simp only [runRename, hstep2]
    rw [← heq]
  · have hkn : kindOf [(⟨nm, k, c⟩ : Entry)] (new_name b jpgExt) = none := by
      apply kindOf_none
      intro g hg
      rw [List.mem_singleton] at hg
      rw [hg]
      exact fun hh => heq hh
    have hop := renameOp_fresh [(⟨nm, k, c⟩ : Entry)] nm (new_name b jpgExt)
      (by rw [hko]; intro hh; exact Option.noConfusion hh) heq hkn
    have happ : applyRename [(⟨nm, k, c⟩ : Entry)] nm (new_name b jpgExt) =
        [⟨new_name b jpgExt, k, c⟩] := by
      rw [applyRename]
      simp [List.filter_cons, heq]
    have hstep2 : renameStep [(⟨nm, k, c⟩ : Entry)] nm =
        Except.ok [⟨new_name b jpgExt, k, c⟩] := by
      rw [hstep, hop, happ]
    rw [renamePass]
    show runRename [nm] [⟨nm, k, c⟩] = _
    simp only [runRename, hstep2]

/-- Claim C2, amended: directories are excluded from the listing pass —
every printed path is the path of a regular-file entry — but not from the
rename pass: a directory entry whose `splitext` extension is `'.jpg'` is
renamed just like a file, since the rename loop never checks the kind. -/
theorem listing_skips_dirs_rename_does_not (dp mp : Name) (d : List Entry) :
    (∀ p ∈ listingOutput dp mp d,
        ∃ g ∈ d, g.kind = EntryKind.file ∧ p = printedPath dp mp g.name) ∧
      (∀ nm b c, splitext nm = (b, jpgExt) →
        renamePass [⟨nm, EntryKind.dir, c⟩] =
          ([⟨new_name b jpgExt, EntryKind.dir, c⟩], none)) := by
  constructor
  · intro p hp
    rw [listingOutput, List.mem_map] at hp
    obtain ⟨g, hgf, rfl⟩ := hp
    have hg := List.mem_filter.mp hgf
    exact ⟨g, hg.1, of_decide_eq_true hg.2, rfl⟩
  · intro nm b c hsp
    exact renamePass_singleton nm b EntryKind.dir c hsp

/-- Closed instance of the amended directory-exclusion claim. -/
theorem listing_skips_dirs_rename_does_not_witness :
    (strBytes (r"/s/d/a") ∈
        listingOutput (strBytes (r"/s")) (strBytes (r"d"))
          [⟨strBytes (r"a"), EntryKind.file, 0⟩] →
      ∃ g ∈ [(⟨strBytes (r"a"), EntryKind.file, 0⟩ : Entry)], g.kind = EntryKind.file ∧
        strBytes (r"/s/d/a") = printedPath (strBytes (r"/s")) (strBytes (r"d")) g.name) ∧
      renamePass [⟨strBytes (r"Dir_x.jpg"), EntryKind.dir, 5⟩] =
        ([⟨new_name (strBytes (r"Dir_x")) jpgExt, EntryKind.dir, 5⟩], none) :=
  ⟨fun hp => (listing_skips_dirs_rename_does_not (strBytes (r"/s")) (strBytes (r"d"))
      [⟨strBytes (r"a"), EntryKind.file, 0⟩]).1 (strBytes (r"/s/d/a")) hp,
    (listing_skips_dirs_rename_does_not (strBytes (r"/s")) (strBytes (r"d"))
      [⟨strBytes (r"a"), EntryKind.file, 0⟩]).2 (strBytes (r"Dir_x.jpg"))
      (strBytes (r"Dir_x")) 5 (by decide)⟩

/-- Claim C3: an entry whose `splitext` extension is exactly `'.jpg'` is
renamed by the rename pass to the before-first-underscore part of its base
name, lowercased, with `'.jpg'` appended — provided no other listing entry
collapses onto that target or onto the entry's own name (the collision cases
the specification treats separately), the target name is fresh, and the pass
finishes without error.  After the pass the directory holds the entry under
the computed name, kind and content unchanged. -/
theorem jpg_entry_renamed_to_new_name (s s2 : List Entry) (e : Entry) (b : Name)
    (hnd : (s.map Entry.name).Nodup)
    (he : e ∈ s)
    (hsp : splitext e.name = (b, jpgExt))
    (hcol : ∀ g ∈ s, ¬ g.name = e.name → ¬ targetOf g.name = some (new_name b jpgExt))
    (honto : ∀ g ∈ s, ¬ g.name = e.name → ¬ targetOf g.name = some e.name)
    (hfresh : ∀ g ∈ s, ¬ g.name = new_name b jpgExt)
    (hrun : renamePass s = (s2, none)) :
    (⟨new_name b jpgExt, e.kind, e.content⟩ : Entry) ∈ s2 := by
  obtain ⟨sa, sb, rfl⟩ := List.append_of_mem he
  have hnames : (sa ++ e :: sb).map Entry.name =
      sa.map Entry.name ++ e.name :: sb.map Entry.name := by
    rw [List.map_append, List.map_cons]
  have hnd2 : (sa.map Entry.name ++ e.name :: sb.map Entry.name).Nodup := hnames ▸ hnd
  obtain ⟨hndl1, hndl2, hdisj⟩ := List.nodup_append.mp hnd2
  have hl1 : ∀ f ∈ sa.map Entry.name, ¬ f = e.name ∧ ∃ g ∈ sa ++ e :: sb, g.name = f := by
    intro f hf
    constructor
    · intro hfe
      exact hdisj hf (hfe ▸ List.mem_cons_self e.name (sb.map Entry.name))
    · rw [List.mem_map] at hf
      obtain ⟨g, hg, rfl⟩ := hf
      exact ⟨g, List.mem_append_left _ hg, rfl⟩
  rw [renamePass, hnames] at hrun
  cases hr1 : runRename (sa.map Entry.name) (sa ++ e :: sb) with
  | mk s1 r1 =>
    cases r1 with
    | some er =>
      rw [runRename_append_err (sa.map Entry.name) (e.name :: sb.map Entry.name)
        (sa ++ e :: sb) s1 er hr1] at hrun
      injection hrun with h1 h2
      exact Option.noConfusion h2
    | none =>
      rw [runRename_append_ok (sa.map Entry.name) (e.name :: sb.map Entry.name)
        (sa ++ e :: sb) s1 hr1] at hrun
      have hcond1 : ∀ f ∈ sa.map Entry.name,
          targetOf f = none ∨ (¬ f = e.name ∧ ¬ targetOf f = some e.name) := by
        intro f hf
        obtain ⟨hfn, g, hgmem, hgname⟩ := hl1 f hf
        refine Or.inr ⟨hfn, ?_⟩
        have hh := honto g hgmem (by rw [hgname]; exact hfn)
        rw [hgname] at hh
        exact hh
      have he1 : e ∈ s1 := by
        have hp := runRename_preserve (sa.map Entry.name) (sa ++ e :: sb) e hcond1 he
        rw [hr1] at hp
        exact hp
      have hnd1 : (s1.map Entry.name).Nodup := by
        have hp := runRename_nodup (sa.map Entry.name) (sa ++ e :: sb) hnd
        rw [hr1] at hp
        exact hp
      have ht1 : ∀ g1 ∈ s1, ¬ g1.name = new_name b jpgExt := by
        intro g1 hg1 hname
        have hg1b : g1 ∈ (runRename (sa.map Entry.name) (sa ++ e :: sb)).1 := by
          rw [hr1]
          exact hg1
        rcases runRename_names (sa.map Entry.name) (sa ++ e :: sb) g1 hg1b with
          ⟨e2, he2, hname2⟩ | ⟨f, hfl, htf⟩
        · exact hfresh e2 he2 (by rw [hname2, hname])
        · obtain ⟨hfn, g, hgmem, hgname⟩ := hl1 f hfl
          exact hcol g hgmem (by rw [hgname]; exact hfn) (by rw [hgname, htf, hname])
      have hkt : kindOf s1 (new_name b jpgExt) = none := kindOf_none s1 _ ht1
      have hkn : kindOf s1 e.name = some e.kind := kindOf_of_mem_nodup s1 e hnd1 he1
      have hnet : ¬ e.name = new_name b jpgExt := hfresh e he
      have hop := renameOp_fresh s1 e.name (new_name b jpgExt)
        (by rw [hkn]; exact fun hh => Option.noConfusion hh) hnet hkt
      have hstep : renameStep s1 e.name =
          Except.ok (applyRename s1 e.name (new_name b jpgExt)) := by
        rw [renameStep_go s1 e.name _ (targetOf_jpg e.name b hsp), hop]
      simp only [runRename, hstep] at hrun
      have hmem2 : (⟨new_name b jpgExt, e.kind, e.content⟩ : Entry) ∈
          applyRename s1 e.name (new_name b jpgExt) :=
        applyRename_mem_new s1 e.name (new_name b jpgExt) e he1 rfl hnet
      have hcond3 : ∀ f ∈ sb.map Entry.name, targetOf f = none ∨
          (¬ f = (⟨new_name b jpgExt, e.kind, e.content⟩ : Entry).name ∧
            ¬ targetOf f = some (⟨new_name b jpgExt, e.kind, e.content⟩ : Entry).name) := by
        intro f hf
        have hf2 : ∃ g ∈ sa ++ e :: sb, g.name = f := by
          rw [List.mem_map] at hf
          obtain ⟨g, hg, rfl⟩ := hf
          exact ⟨g, List.mem_append_right sa (List.mem_cons_of_mem e hg), rfl⟩
        obtain ⟨g, hgmem, hgname⟩ := hf2
        refine Or.inr ⟨by rw [← hgname]; exact hfresh g hgmem, ?_⟩
        have hfne : ¬ f = e.name := by
          intro hfe
          have hmm : e.name ∈ sb.map Entry.name := hfe ▸ hf
          exact (List.nodup_cons.mp hndl2).1 hmm
        have hh := hcol g hgmem (by rw [hgname]; exact hfne)
        rw [hgname] at hh
        exact hh
      have hp3 := runRename_preserve (sb.map Entry.name)
        (applyRename s1 e.name (new_name b jpgExt))
        ⟨new_name b jpgExt, e.kind, e.content⟩ hcond3 hmem2
      rw [hrun] at hp3
      exact hp3

/-- Closed instance of the jpg-rename claim: in a directory listing
`X_Y.jpg`, `Photo.jpg`, `notes.txt`, the file `X_Y.jpg` ends up as `x.jpg`
with its content, and (run separately) `Photo.jpg` ends up as `photo.jpg`. -/
theorem jpg_entry_renamed_to_new_name_witness :
    (⟨strBytes (r"x.jpg"), EntryKind.file, 7⟩ : Entry) ∈
        (renamePass [⟨strBytes (r"X_Y.jpg"), EntryKind.file, 7⟩,
          ⟨strBytes (r"Photo.jpg"), EntryKind.file, 8⟩,
          ⟨strBytes (r"notes.txt"), EntryKind.dir, 9⟩]).1 ∧
      (⟨strBytes (r"photo.jpg"), EntryKind.file, 8⟩ : Entry) ∈
        (renamePass [⟨strBytes (r"X_Y.jpg"), EntryKind.file, 7⟩,
          ⟨strBytes (r"Photo.jpg"), EntryKind.file, 8⟩,
          ⟨strBytes (r"notes.txt"), EntryKind.dir, 9⟩]).1 := by
  constructor
  · have hh := jpg_entry_renamed_to_new_name
      [⟨strBytes (r"X_Y.jpg"), EntryKind.file, 7⟩,
        ⟨strBytes (r"Photo.jpg"), EntryKind.file, 8⟩,
        ⟨strBytes (r"notes.txt"), EntryKind.dir, 9⟩]
      [⟨strBytes (r"x.jpg"), EntryKind.file, 7⟩,
        ⟨strBytes (r"photo.jpg"), EntryKind.file, 8⟩,
        ⟨strBytes (r"notes.txt"), EntryKind.dir, 9⟩]
      ⟨strBytes (r"X_Y.jpg"), EntryKind.file, 7⟩ (strBytes (r"X_Y"))
      (by decide) (by decide) (by decide) (by decide) (by decide) (by decide) (by decide)
    exact hh
  · have hh := jpg_entry_renamed_to_new_name
      [⟨strBytes (r"X_Y.jpg"), EntryKind.file, 7⟩,
        ⟨strBytes (r"Photo.jpg"), EntryKind.file, 8⟩,
        ⟨strBytes (r"notes.txt"), EntryKind.dir, 9⟩]
      [⟨strBytes (r"x.jpg"), EntryKind.file, 7⟩,
        ⟨strBytes (r"photo.jpg"), EntryKind.file, 8⟩,
        ⟨strBytes (r"notes.txt"), EntryKind.dir, 9⟩]
      ⟨strBytes (r"Photo.jpg"), EntryKind.file, 8⟩ (strBytes (r"Photo"))
      (by decide) (by decide) (by decide) (by decide) (by decide) (by decide) (by decide)
    exact hh

/-- Claim C4, counterexample: the entry named `.jpg` has `splitext` extension
`''`, not `'.jpg'`, yet it is NOT left untouched: renaming `_x.jpg` computes
the empty before-underscore part, so its target is `.jpg`, and the rename
silently replaces the original `.jpg` file (content 0 is gone, content 1
remains under that name). -/
theorem non_jpg_overwritten_cex :
    ¬ (splitext (strBytes (r".jpg"))).2 = jpgExt ∧
      renamePass [⟨strBytes (r".jpg"), EntryKind.file, 0⟩,
          ⟨strBytes (r"_x.jpg"), EntryKind.file, 1⟩] =
        ([⟨strBytes (r".jpg"), EntryKind.file, 1⟩], none) ∧
      ¬ (⟨strBytes (r".jpg"), EntryKind.file, 0⟩ : Entry) ∈
        (renamePass [⟨strBytes (r".jpg"), EntryKind.file, 0⟩,
          ⟨strBytes (r"_x.jpg"), EntryKind.file, 1⟩]).1 := by
  refine ⟨by decide, by decide, by decide⟩

/-- Claim C4, amended: an entry whose `splitext` extension is not exactly
`'.jpg'` is never the source of a rename (the loop skips it), and it stays in
the directory unchanged provided no rename of a `'.jpg'` entry targets its
name (which is possible only for names such as `.jpg` whose `splitext`
extension is empty). -/
theorem non_jpg_never_renamed (s s2 : List Entry) (e : Entry) (r : Option Err)
    (he : e ∈ s)
    (hext : ¬ (splitext e.name).2 = jpgExt)
    (hnotgt : ∀ g ∈ s, ¬ targetOf g.name = some e.name)
    (hrun : renamePass s = (s2, r)) :
    targetOf e.name = none ∧ e ∈ s2 := by
  refine ⟨targetOf_not_jpg e.name hext, ?_⟩
  have hcond : ∀ f ∈ s.map Entry.name,
      targetOf f = none ∨ (¬ f = e.name ∧ ¬ targetOf f = some e.name) := by
    intro f hf
    rw [List.mem_map] at hf
    obtain ⟨g, hg, rfl⟩ := hf
    by_cases hfe : g.name = e.name
    · rw [hfe]
      exact Or.inl (targetOf_not_jpg e.name hext)
    · exact Or.inr ⟨hfe, hnotgt g hg⟩
  have hp := runRename_preserve (s.map Entry.name) s e hcond he
  rw [renamePass] at hrun
  rw [hrun] at hp
  exact hp

/-- Closed instance of the amended untouched-non-jpg claim. -/
theorem non_jpg_never_renamed_witness :
    targetOf (strBytes (r"notes.txt")) = none ∧
      (⟨strBytes (r"notes.txt"), EntryKind.file, 3⟩ : Entry) ∈
        [⟨strBytes (r"notes.txt"), EntryKind.file, 3⟩,
          ⟨strBytes (r"a.jpg"), EntryKind.file, 4⟩] :=
  non_jpg_never_renamed
    [⟨strBytes (r"notes.txt"), EntryKind.file, 3⟩,
      ⟨strBytes (r"A_b.jpg"), EntryKind.file, 4⟩]
    [⟨strBytes (r"notes.txt"), EntryKind.file, 3⟩,
      ⟨strBytes (r"a.jpg"), EntryKind.file, 4⟩]
    ⟨strBytes (r"notes.txt"), EntryKind.file, 3⟩ none
    (by decide) (by decide) (by decide) (by decide)

/-- Claim C5: on a directory whose `'.jpg'` entries all have an
already-lowercase, underscore-free base name, every iteration renames the
entry to its own name (a no-op), so one run leaves the directory unchanged
and a second run produces exactly the state after the first. -/
theorem rename_pass_idempotent_normal (s : List Entry)
    (h : ∀ g ∈ s, (splitext g.name).2 = jpgExt →
      ∀ c ∈ (splitext g.name).1, ¬ c = 95 ∧ ¬ (65 ≤ c ∧ c ≤ 90)) :
    renamePass s = (s, none) ∧ renamePass (renamePass s).1 = renamePass s := by
  have hmain : renamePass s = (s, none) := by
    rw [renamePass]
    apply runRename_id
    intro f hf
    rw [List.mem_map] at hf
    obtain ⟨g, hg, rfl⟩ := hf
    by_cases hext : (splitext g.name).2 = jpgExt
    · have hpair : splitext g.name = ((splitext g.name).1, jpgExt) := by
        rw [← hext]
      have hb := h g hg hext
      have hb1 : beforeUnderscore (splitext g.name).1 = (splitext g.name).1 :=
        beforeUnderscore_eq_self _ (fun c hc => (hb c hc).1)
      have hb2 : lower (splitext g.name).1 = (splitext g.name).1 :=
        lower_eq_self _ (fun c hc => (hb c hc).2)
      have hnn : new_name (splitext g.name).1 jpgExt = g.name := by
        rw [new_name, hb1, hb2, ← hext]
        exact splitext_append g.name
      have htf : targetOf g.name = some g.name := by
        rw [targetOf_jpg g.name ((splitext g.name).1) hpair, hnn]
      rw [renameStep_go s g.name g.name htf]
      exact renameOp_self s g.name (kindOf_ne_none s g hg)
    · exact renameStep_skip s g.name (targetOf_not_jpg g.name hext)
  exact ⟨hmain, by rw [hmain]; exact hmain⟩

/-- Closed instance of the idempotence claim. -/
theorem rename_pass_idempotent_normal_witness :
    renamePass [⟨strBytes (r"a.jpg"), EntryKind.file, 0⟩,
        ⟨strBytes (r"b.txt"), EntryKind.file, 1⟩,
        ⟨strBytes (r"img"), EntryKind.dir, 2⟩] =
      ([⟨strBytes (r"a.jpg"), EntryKind.file, 0⟩,
        ⟨strBytes (r"b.txt"), EntryKind.file, 1⟩,
        ⟨strBytes (r"img"), EntryKind.dir, 2⟩], none) :=
  (rename_pass_idempotent_normal
    [⟨strBytes (r"a.jpg"), EntryKind.file, 0⟩,
      ⟨strBytes (r"b.txt"), EntryKind.file, 1⟩,
      ⟨strBytes (r"img"), EntryKind.dir, 2⟩] (by decide)).1

theorem renameOp_overwrite (s : List Entry) (old nw : Name) (h2 : ¬ old = nw)
    (hko : kindOf s old = some EntryKind.file)
    (hkn : kindOf s nw = some EntryKind.file) :
    renameOp s old nw = Except.ok (applyRename s old nw) := by
  simp [renameOp, hko, hkn, h2]

/-- Claim C6: when two `'.jpg'` files of the directory collapse onto the same
target name, the pass raises no error: the earlier file is renamed first, and
the rename of the later file silently replaces it, so after the pass the
target name holds the later-processed file's content. -/
theorem collision_later_wins (n1 n2 t : Name) (c1 c2 : Nat)
    (h1 : targetOf n1 = some t) (h2 : targetOf n2 = some t)
    (hne : ¬ n1 = n2) (ht1 : ¬ t = n1) (ht2 : ¬ t = n2) :
    renamePass [⟨n1, EntryKind.file, c1⟩, ⟨n2, EntryKind.file, c2⟩] =
      ([⟨t, EntryKind.file, c2⟩], none) := by
  have hn1t : ¬ n1 = t := fun hh => ht1 hh.symm
  have hn2t : ¬ n2 = t := fun hh => ht2 hh.symm
  have hn21 : ¬ n2 = n1 := fun hh => hne hh.symm
  have hko1 : kindOf [⟨n1, EntryKind.file, c1⟩, ⟨n2, EntryKind.file, c2⟩] n1 =
      some EntryKind.file := by
    rw [kindOf, List.find?_cons_of_pos _ (by simp)]
    rfl
  have hkt1 : kindOf [⟨n1, EntryKind.file, c1⟩, ⟨n2, EntryKind.file, c2⟩] t = none := by
    apply kindOf_none
    intro g hg
    rcases List.mem_cons.mp hg with rfl | hg2
    · exact hn1t
    · rw [List.mem_singleton] at hg2
      rw [hg2]
      exact hn2t
  have hop1 := renameOp_fresh [⟨n1, EntryKind.file, c1⟩, ⟨n2, EntryKind.file, c2⟩] n1 t
    (by rw [hko1]; exact fun hh => Option.noConfusion hh) hn1t hkt1
  have happ1 : applyRename [⟨n1, EntryKind.file, c1⟩, ⟨n2, EntryKind.file, c2⟩] n1 t =
      [⟨t, EntryKind.file, c1⟩, ⟨n2, EntryKind.file, c2⟩] := by
    rw [applyRename]
    simp [List.filter_cons, hn1t, hn2t, hn21]
  have hstep1 : renameStep [⟨n1, EntryKind.file, c1⟩, ⟨n2, EntryKind.file, c2⟩] n1 =
      Except.ok [⟨t, EntryKind.file, c1⟩, ⟨n2, EntryKind.file, c2⟩] := by
    rw [renameStep_go _ n1 t h1, hop1, happ1]
  have hko2 : kindOf [⟨t, EntryKind.file, c1⟩, ⟨n2, EntryKind.file, c2⟩] n2 =
      some EntryKind.file := by
    rw [kindOf, List.find?_cons_of_neg _ (by simp [ht2]), List.find?_cons_of_pos _ (by simp)]
    rfl
  have hkt2 : kindOf [⟨t, EntryKind.file, c1⟩, ⟨n2, EntryKind.file, c2⟩] t =
      some EntryKind.file := by
    rw [kindOf, List.find?_cons_of_pos _ (by simp)]
    rfl
  have hop2 := renameOp_overwrite [⟨t, EntryKind.file, c1⟩, ⟨n2, EntryKind.file, c2⟩] n2 t
    hn2t hko2 hkt2
  have happ2 : applyRename [⟨t, EntryKind.file, c1⟩, ⟨n2, EntryKind.file, c2⟩] n2 t =
      [⟨t, EntryKind.file, c2⟩] := by
    rw [applyRename]
    simp [List.filter_cons, hn2t, hn21]
  have hstep2 : renameStep [⟨t, EntryKind.file, c1⟩, ⟨n2, EntryKind.file, c2⟩] n2 =
      Except.ok [⟨t, EntryKind.file, c2⟩] := by
    rw [renameStep_go _ n2 t h2, hop2, happ2]
  rw [renamePass]
  show runRename [n1, n2] [⟨n1, EntryKind.file, c1⟩, ⟨n2, EntryKind.file, c2⟩] = _
  simp only [runRename, hstep1, hstep2]

/-- Closed instance of the collision claim: `A_1.jpg` and `A_2.jpg` both
collapse to `a.jpg`; the directory ends with a single `a.jpg` holding the
content of `A_2.jpg`. -/
theorem collision_later_wins_witness :
    renamePass [⟨strBytes (r"A_1.jpg"), EntryKind.file, 1⟩,
        ⟨strBytes (r"A_2.jpg"), EntryKind.file, 2⟩] =
      ([⟨strBytes (r"a.jpg"), EntryKind.file, 2⟩], none) :=
  collision_later_wins (strBytes (r"A_1.jpg")) (strBytes (r"A_2.jpg"))
    (strBytes (r"a.jpg")) 1 2 (by decide) (by decide) (by decide) (by decide) (by decide)

/-- Claim C7: no filesystem failure is handled: when an iteration of the
rename loop fails, the error propagates and the loop stops — the renames
already performed (the state reached so far) stay in place, and none of the
remaining iterations run, whatever they would have done. -/
theorem error_aborts_rest (l1 l2 : List Name) (f : Name) (s0 s1 : List Entry) (er : Err)
    (hok : runRename l1 s0 = (s1, none))
    (hfail : renameStep s1 f = Except.error er) :
    runRename (l1 ++ f :: l2) s0 = (s1, some er) := by
  rw [runRename_append_ok l1 (f :: l2) s0 s1 hok]
  simp only [runRename, hfail]

/-- Closed instance of the abort claim: after `Ok_1.jpg` is renamed to
`ok.jpg`, renaming `Bad_x.jpg` over the existing subdirectory `bad.jpg`
fails; the loop stops with `C_z.jpg` still unprocessed and the first rename
kept. -/
theorem error_aborts_rest_witness :
    runRename [strBytes (r"Ok_1.jpg"), strBytes (r"Bad_x.jpg"), strBytes (r"C_z.jpg")]
        [⟨strBytes (r"Ok_1.jpg"), EntryKind.file, 0⟩,
          ⟨strBytes (r"Bad_x.jpg"), EntryKind.file, 1⟩,
          ⟨strBytes (r"C_z.jpg"), EntryKind.file, 2⟩,
          ⟨strBytes (r"bad.jpg"), EntryKind.dir, 3⟩] =
      ([⟨strBytes (r"ok.jpg"), EntryKind.file, 0⟩,
        ⟨strBytes (r"Bad_x.jpg"), EntryKind.file, 1⟩,
        ⟨strBytes (r"C_z.jpg"), EntryKind.file, 2⟩,
        ⟨strBytes (r"bad.jpg"), EntryKind.dir, 3⟩], some Err.clash) :=
  error_aborts_rest [strBytes (r"Ok_1.jpg")] [strBytes (r"C_z.jpg")]
    (strBytes (r"Bad_x.jpg"))
    [⟨strBytes (r"Ok_1.jpg"), EntryKind.file, 0⟩,
      ⟨strBytes (r"Bad_x.jpg"), EntryKind.file, 1⟩,
      ⟨strBytes (r"C_z.jpg"), EntryKind.file, 2⟩,
      ⟨strBytes (r"bad.jpg"), EntryKind.dir, 3⟩]
    [⟨strBytes (r"ok.jpg"), EntryKind.file, 0⟩,
      ⟨strBytes (r"Bad_x.jpg"), EntryKind.file, 1⟩,
      ⟨strBytes (r"C_z.jpg"), EntryKind.file, 2⟩,
      ⟨strBytes (r"bad.jpg"), EntryKind.dir, 3⟩]
    Err.clash (by decide) (by rfl)

/-- Claim C9: a directory entry named exactly `.jpg` is never renamed: the
code's `splitext` keeps the leading dot in the base name and returns an empty
extension, so the rename loop skips the entry in any directory state — even
though under the glossary's definition (substring after the last dot) the
extension of `.jpg` would be `jpg`. -/
theorem dot_jpg_never_renamed :
    (∀ s : List Entry, renameStep s (strBytes (r".jpg")) = Except.ok s) ∧
      splitext (strBytes (r".jpg")) = (strBytes (r".jpg"), []) ∧
      glossaryExt (strBytes (r".jpg")) = some (strBytes (r"jpg")) := by
  refine ⟨?_, by decide, by decide⟩
  intro s
  apply renameStep_skip
  decide

/-- Claim C10: the target name computed for any `'.jpg'` input is in normal
form: its `splitext` base holds no underscore and no uppercase letter, the
name is the computed part with the lowercase `'.jpg'` appended, and a second
run maps the name to itself or skips it — the invariant behind idempotence
on renamed output. -/
theorem target_name_normal_form (f b : Name) (hsp : splitext f = (b, jpgExt)) :
    targetOf f = some (new_name b jpgExt) ∧
      (∀ c ∈ (splitext (new_name b jpgExt)).1, ¬ c = 95 ∧ ¬ (65 ≤ c ∧ c ≤ 90)) ∧
      (∃ pre : Name, new_name b jpgExt = pre ++ jpgExt) ∧
      (targetOf (new_name b jpgExt) = none ∨
        targetOf (new_name b jpgExt) = some (new_name b jpgExt)) := by
  refine ⟨targetOf_jpg f b hsp, ?_, ⟨lower (beforeUnderscore b), rfl⟩, targetOf_new_name b⟩
  intro c hc
  have hjpg : ∀ c2 ∈ jpgExt, ¬ c2 = 95 ∧ ¬ (65 ≤ c2 ∧ c2 ≤ 90) := by decide
  have hct : c ∈ new_name b jpgExt := by
    rw [← splitext_append (new_name b jpgExt)]
    exact List.mem_append_left _ hc
  rw [new_name, List.mem_append] at hct
  rcases hct with hcl | hcj
  · exact ⟨lower_ne95 (beforeUnderscore b) (beforeUnderscore_ne95 b) c hcl,
      lower_not_upper (beforeUnderscore b) c hcl⟩
  · exact hjpg c hcj

/-- Closed instance of the normal-form claim at `A_B.jpg`. -/
theorem target_name_normal_form_witness :
    targetOf (strBytes (r"A_B.jpg")) = some (new_name (strBytes (r"A_B")) jpgExt) ∧
      (∀ c ∈ (splitext (new_name (strBytes (r"A_B")) jpgExt)).1,
        ¬ c = 95 ∧ ¬ (65 ≤ c ∧ c ≤ 90)) ∧
      (∃ pre : Name, new_name (strBytes (r"A_B")) jpgExt = pre ++ jpgExt) ∧
      (targetOf (new_name (strBytes (r"A_B")) jpgExt) = none ∨
        targetOf (new_name (strBytes (r"A_B")) jpgExt) =
          some (new_name (strBytes (r"A_B")) jpgExt)) :=
  target_name_normal_form (strBytes (r"A_B.jpg")) (strBytes (r"A_B")) (by decide)
